import Mathlib

/-!
Verification of the oars resolvent-splitting engine (serial reference
algorithm, parallel engine, topology planner, termination monitor and the
trace-equality proximal operator) against its natural-language
specification.  Scalar arithmetic is modelled exactly over the rationals;
iterate vectors live in an arbitrary module over the rationals, mirroring
numpy arrays of a fixed common shape.  Resolvents are modelled as abstract
per-node functions prox : V -> Q -> V, matching the duck-typed contract
(the core only ever calls resolvent.prox).
-/

/-- Translation of numpy isclose(x, 0.0) with the default atol of 1e-8
(the rtol term contributes nothing against a zero reference value).
Used by requiredQueues in parallel.py. -/
def close0 (x : ℚ) : Bool := decide (|x| ≤ 1 / 100000000)

/-- Translation of parallel.py line 28: L = -np.tril(Z, -1), i.e. L is
minus the strictly lower triangular part of Z. -/
def Lmat {n : ℕ} (Z : Fin n → Fin n → ℚ) : Fin n → Fin n → ℚ :=
  fun i j => if (j : ℕ) < (i : ℕ) then -Z i j else 0

/-!
Topology planner, translated from requiredQueues (parallel.py lines
76-131).  The python code iterates over pairs (i, j) with j < i and
classifies the pair from W[i,j] and L[i,j] using np.isclose; membership of
a peer in one of the five per-node lists is rendered here as a boolean
predicate on the pair of node indices.
-/

/-- Peer j is in the WQ list of node i: pure W coupling.  For j < i this is
the branch W[i,j] not close to 0 and L[i,j] close to 0 appending j to
comms_i; for j > i it is the same branch of the pair (j, i) appending to i the
higher-indexed peer. -/
def inWQ {n : ℕ} (W L : Fin n → Fin n → ℚ) (i j : Fin n) : Bool :=
  if (j : ℕ) < (i : ℕ) then !close0 (W i j) && close0 (L i j)
  else if (i : ℕ) < (j : ℕ) then !close0 (W j i) && close0 (L j i)
  else false

/-- Peer j is in the up_LQ list of node i: j < i with L-only coupling. -/
def inUpLQ {n : ℕ} (W L : Fin n → Fin n → ℚ) (i j : Fin n) : Bool :=
  decide ((j : ℕ) < (i : ℕ)) && close0 (W i j) && !close0 (L i j)

/-- Peer j is in the down_LQ list of node i: j > i with L-only coupling. -/
def inDownLQ {n : ℕ} (W L : Fin n → Fin n → ℚ) (i j : Fin n) : Bool :=
  decide ((i : ℕ) < (j : ℕ)) && close0 (W j i) && !close0 (L j i)

/-- Peer j is in the up_BQ list of node i: j < i with both couplings. -/
def inUpBQ {n : ℕ} (W L : Fin n → Fin n → ℚ) (i j : Fin n) : Bool :=
  decide ((j : ℕ) < (i : ℕ)) && !close0 (W i j) && !close0 (L i j)

/-- Peer j is in the down_BQ list of node i: j > i with both couplings. -/
def inDownBQ {n : ℕ} (W L : Fin n → Fin n → ℚ) (i j : Fin n) : Bool :=
  decide ((i : ℕ) < (j : ℕ)) && !close0 (W j i) && !close0 (L j i)

/-- The planner creates the ordered channel a -> b.  Translated from the
Queue_Array construction in requiredQueues: for a pair (i, j) with j < i,
the W branch creates both (i, j) and (j, i); the elif L branch creates
only (j, i), the upward channel. -/
def hasChannel {n : ℕ} (W L : Fin n → Fin n → ℚ) (a b : Fin n) : Bool :=
  if (b : ℕ) < (a : ℕ) then !close0 (W a b)
  else if (a : ℕ) < (b : ℕ) then !close0 (W b a) || !close0 (L b a)
  else false

/-- The five membership flags of peer j at node i, in the order
WQ, up_LQ, down_LQ, up_BQ, down_BQ. -/
def classVec {n : ℕ} (W L : Fin n → Fin n → ℚ) (i j : Fin n) : List Bool :=
  [inWQ W L i j, inUpLQ W L i j, inDownLQ W L i j, inUpBQ W L i j,
   inDownBQ W L i j]

/-!
Sequential sweeps.  Both engines update an array of per-node x values in
index order, node k reading only entries with index below k.  sweepAux
body xprev k is the array state after the first k bodies have run.  For
the serial engine the body is literally the loop body of serial.py lines
61-68.  For the parallel engine the body is the round computation of one
worker (parallel.py lines 179-190): under the FIFO channel discipline
every message a worker receives before its prox in round k is the round-k
x value of the sending peer (each channel carries exactly one message per
round in each phase, sends precede the matching receives, and per-pair
order is preserved), so the round-k x values are the unique solution of
the lower-triangular dataflow system, computed here in index order.
-/

/-- Array state after the first k bodies of an index-ordered sweep: entry
i = k is overwritten with body i applied to the current array, other
entries keep their value. -/
def sweepAux {V : Type} {n : ℕ} (body : Fin n → (Fin n → V) → V)
    (xprev : Fin n → V) : ℕ → Fin n → V
  | 0 => xprev
  | k + 1 => fun i =>
      if (i : ℕ) = k then body i (sweepAux body xprev k)
      else sweepAux body xprev k i

/-- Loop body of the serial resolvent sweep (serial.py lines 61-68):
y = all_v[i] - sum(Z[i,j]*all_x[j] for j in range(i)) followed by
all_x[i] = resolvent.prox(y, alpha). -/
def serialBody {V : Type} [AddCommGroup V] [Module ℚ V] {n : ℕ}
    (Z : Fin n → Fin n → ℚ) (prox : Fin n → V → ℚ → V) (alpha : ℚ)
    (v : Fin n → V) : Fin n → (Fin n → V) → V :=
  fun i xs =>
    prox i (v i - ∑ j : Fin n,
      if (j : ℕ) < (i : ℕ) then Z i j • xs j else 0) alpha

/-- The full resolvent sweep of one serial iteration. -/
def serialStepX {V : Type} [AddCommGroup V] [Module ℚ V] {n : ℕ}
    (Z : Fin n → Fin n → ℚ) (prox : Fin n → V → ℚ → V) (alpha : ℚ)
    (x v : Fin n → V) : Fin n → V :=
  sweepAux (serialBody Z prox alpha v) x n

/-- Iterate sequence of the serial algorithm (serial.py lines 57-72): the
pair (all_x, all_v) after k outer iterations, starting from all_x = 0 and
all_v = v0.  The consensus loop updates every v_i from the post-sweep x
array: v_i := v_i - gamma * (sum over all j of W[i,j] x_j). -/
def serialIter {V : Type} [AddCommGroup V] [Module ℚ V] {n : ℕ}
    (W Z : Fin n → Fin n → ℚ) (prox : Fin n → V → ℚ → V)
    (alpha gamma : ℚ) (v0 : Fin n → V) : ℕ → (Fin n → V) × (Fin n → V)
  | 0 => (fun _ => 0, v0)
  | k + 1 =>
      let s := serialIter W Z prox alpha gamma v0 k
      let x := serialStepX Z prox alpha s.1 s.2
      (x, fun i => s.2 i - gamma • ∑ j, W i j • x j)

/-- Return value of the serial algorithm after itrs iterations
(serial.py line 89): xbar = sum(all_x)/n, together with the final
per-node x and v arrays collected into the results list. -/
def serialRun {V : Type} [AddCommGroup V] [Module ℚ V] {n : ℕ}
    (W Z : Fin n → Fin n → ℚ) (prox : Fin n → V → ℚ → V)
    (alpha gamma : ℚ) (v0 : Fin n → V) (itrs : ℕ) :
    V × (Fin n → V) × (Fin n → V) :=
  let s := serialIter W Z prox alpha gamma v0 itrs
  ((n : ℚ)⁻¹ • ∑ i, s.1 i, s.1, s.2)

/-!
Parallel engine, translated from subproblem (parallel.py lines 133-243)
with the comms sets produced by requiredQueues for W and L = Lmat Z.
Worker i accumulates local_r over its up_LQ and up_BQ peers, runs its
prox, broadcasts, then accumulates v_temp over its up_BQ, WQ and down_BQ
peers and performs local_v -= gamma*(W[i,i]*w + v_temp).
-/

/-- Round body of worker i before the consensus update: local_r is the
sum of L[i,j] times the received x_j over the up_LQ and up_BQ peers, and
the new x is resolvent.prox(local_v + local_r, alpha). -/
def parBody {V : Type} [AddCommGroup V] [Module ℚ V] {n : ℕ}
    (W Z : Fin n → Fin n → ℚ) (prox : Fin n → V → ℚ → V) (alpha : ℚ)
    (v : Fin n → V) : Fin n → (Fin n → V) → V :=
  fun i xs =>
    prox i (v i + ∑ j : Fin n,
      if inUpLQ W (Lmat Z) i j || inUpBQ W (Lmat Z) i j
      then Lmat Z i j • xs j else 0) alpha

/-- Round-k x values of all workers, as the solution of the triangular
dataflow system enforced by the pre-resolvent blocking receives. -/
def parStepX {V : Type} [AddCommGroup V] [Module ℚ V] {n : ℕ}
    (W Z : Fin n → Fin n → ℚ) (prox : Fin n → V → ℚ → V) (alpha : ℚ)
    (x v : Fin n → V) : Fin n → V :=
  sweepAux (parBody W Z prox alpha v) x n

/-- The v_temp accumulator of worker i at the end of a round whose x
values are xs: W[i,j]*x_j summed over the up_BQ peers (phase 1), the WQ
peers and the down_BQ peers (phase 5). -/
def parVtmp {V : Type} [AddCommGroup V] [Module ℚ V] {n : ℕ}
    (W Z : Fin n → Fin n → ℚ) (xs : Fin n → V) (i : Fin n) : V :=
  (∑ j : Fin n, if inUpBQ W (Lmat Z) i j then W i j • xs j else 0) +
  (∑ j : Fin n, if inWQ W (Lmat Z) i j then W i j • xs j else 0) +
  (∑ j : Fin n, if inDownBQ W (Lmat Z) i j then W i j • xs j else 0)

/-- Iterate sequence of the parallel engine: per-worker (w_value, local_v)
after k rounds.  The consensus update of parallel.py lines 213-227 is
local_v := local_v - gamma*(W[i,i]*w_value + v_temp). -/
def parIter {V : Type} [AddCommGroup V] [Module ℚ V] {n : ℕ}
    (W Z : Fin n → Fin n → ℚ) (prox : Fin n → V → ℚ → V)
    (alpha gamma : ℚ) (v0 : Fin n → V) : ℕ → (Fin n → V) × (Fin n → V)
  | 0 => (fun _ => 0, v0)
  | k + 1 =>
      let s := parIter W Z prox alpha gamma v0 k
      let x := parStepX W Z prox alpha s.1 s.2
      (x, fun i => s.2 i - gamma • (W i i • x i + parVtmp W Z x i))

/-!
Warm-start seeding (driver responsibilities).  The external helper
getWarmPrimal lives in oars.algorithms.helpers, which is not part of the
sources; it is passed in abstractly as a function of the warm-start point
and L, exactly as both call sites use it.  serial.py line 38 references a
variable L that serialAlgorithm never defines (only parallel.py computes
L = -np.tril(Z, -1)), so the primal warm-start path of the serial entry
point raises a NameError; that path is rendered as an error value.
-/

/-- Seeding of v0 in serialAlgorithm (serial.py lines 37-44).  The primal
warm-start branch evaluates getWarmPrimal(warmstartprimal, L) where L is
an undefined name in serial.py, raising a NameError before any value is
produced. -/
def serialSeedV0 {V : Type} [AddCommGroup V] {n : ℕ}
    (wp : Option V) (wd : Option (Fin n → V)) :
    Except String (Fin n → V) :=
  match wp with
  | some _ => Except.error "NameError: name L is not defined"
  | none =>
      match wd with
      | some u => Except.ok (fun i => 0 + u i)
      | none => Except.ok (fun _ => 0)

/-- Seeding of v0 in parallelAlgorithm (parallel.py lines 43-51), with
the external getWarmPrimal routine passed in as warmPrimal. -/
def parallelSeedV0 {V : Type} [AddCommGroup V] {n : ℕ}
    (warmPrimal : V → (Fin n → Fin n → ℚ) → (Fin n → V))
    (Z : Fin n → Fin n → ℚ) (wp : Option V) (wd : Option (Fin n → V)) :
    Fin n → V :=
  let base : Fin n → V :=
    match wp with
    | some x => warmPrimal x (Lmat Z)
    | none => fun _ => 0
  match wd with
  | some u => fun i => base i + u i
  | none => base

/-- The serial entry point as a fallible computation: seed v0, then run
the iterations and return xbar with the per-node records.  serialAlgorithm
performs no validation of W, Z, dimensions or shapes before iterating;
its only failure mode short of the resolvents themselves is the NameError
of the primal warm-start path. -/
def serialRunE {V : Type} [AddCommGroup V] [Module ℚ V] {n : ℕ}
    (W Z : Fin n → Fin n → ℚ) (prox : Fin n → V → ℚ → V)
    (alpha gamma : ℚ) (wp : Option V) (wd : Option (Fin n → V))
    (itrs : ℕ) : Except String (V × (Fin n → V) × (Fin n → V)) :=
  match serialSeedV0 wp wd with
  | Except.error e => Except.error e
  | Except.ok v0 => Except.ok (serialRun W Z prox alpha gamma v0 itrs)

/-!
Worker termination control, translated from the head of the iteration
loop of subproblem (parallel.py lines 168-175).  tread k is the value of
the shared terminate.value a worker observes at the start of round k
(0 while the monitor has not written).  The loop is rendered with
explicit fuel; every theorem about it carries hypotheses under which the
fuel is sufficient.  The function returns the number of fully executed
rounds: the body of a round is atomic here, matching the code, whose only
exits are the break before any receive and the loop condition.
-/

/-- One simulation of the while loop of subproblem: while itr < itrs,
read t = tread itr; if t is nonzero and t < itr, break; otherwise if t is
nonzero set itrs = t; run the round and increment itr. -/
def workerRoundsAux (tread : ℕ → ℕ) : ℕ → ℕ → ℕ → ℕ
  | 0, itr, _ => itr
  | fuel + 1, itr, itrs =>
      if itr < itrs then
        if tread itr ≠ 0 then
          if tread itr < itr then itr
          else workerRoundsAux tread fuel (itr + 1) (tread itr)
        else workerRoundsAux tread fuel (itr + 1) itrs
      else itr

/-- Number of rounds a worker executes, starting at itr = 0 with bound
itrs. -/
def workerRounds (tread : ℕ → ℕ) (itrs : ℕ) : ℕ :=
  workerRoundsAux tread (2 * itrs + 2) 0 itrs

/-- Termination-read schedule in which the monitor target t becomes
visible at the start of round k: earlier reads return 0, later reads
return t.  Used for concrete instances. -/
def treadAt (k t : ℕ) : ℕ → ℕ := fun j => if j < k then 0 else t

/-!
Termination monitor, translated from evaluate (parallel.py lines
245-283).  The telemetry stream is abstracted as samples : round index ->
node -> V, where samples 0 is the baseline read before the loop and
samples (k+1) is the per-node sample read in round k; the numpy norm is
abstracted as nrm.  The monitor keeps the samples of the previous round,
computes delta as the summed norms of the differences, counts the streak
of rounds with delta < vartol, and on a streak of 10 writes itr + 10 into
the shared target and exits.  The loop bound is itrs - 10 (the code
performs itrs -= 10 before the loop).
-/

/-- Sum of per-node distances between round k+1 and round k samples. -/
def monitorDelta {V : Type} [AddCommGroup V] {n : ℕ} (nrm : V → ℚ)
    (samples : ℕ → Fin n → V) (k : ℕ) : ℚ :=
  ∑ i, nrm (samples (k + 1) i - samples k i)

/-- Streak length of consecutive rounds with delta below vartol, ending
at round k. -/
def streak (delta : ℕ → ℚ) (vartol : ℚ) : ℕ → ℕ
  | 0 => if delta 0 < vartol then 1 else 0
  | k + 1 => if delta (k + 1) < vartol then streak delta vartol k + 1 else 0

/-- Monitor loop: fuel counts the remaining rounds (itrs - 10 - itr),
itr the current round, counter the current streak.  Returns the written
termination target (none if never written) and the number of executed
rounds. -/
def evaluateAux (delta : ℕ → ℚ) (vartol : ℚ) :
    ℕ → ℕ → ℕ → Option ℕ × ℕ
  | 0, itr, _ => (none, itr)
  | fuel + 1, itr, counter =>
      if delta itr < vartol then
        if 10 ≤ counter + 1 then (some (itr + 10), itr + 1)
        else evaluateAux delta vartol fuel (itr + 1) (counter + 1)
      else evaluateAux delta vartol fuel (itr + 1) 0

/-- The evaluate process: read the baseline, then run at most itrs - 10
rounds of the convergence check. -/
def evaluateMonitor {V : Type} [AddCommGroup V] {n : ℕ} (itrs : ℕ)
    (vartol : ℚ) (nrm : V → ℚ) (samples : ℕ → Fin n → V) :
    Option ℕ × ℕ :=
  evaluateAux (monitorDelta nrm samples) vartol (itrs - 10) 0 0

/-!
Mutation of the resolvents list of the caller by serialAlgorithm.  The python
loop (serial.py lines 31-36) executes resolvents[i] = resolvents[i](data[i])
on the caller-supplied list: each entry, a resolvent class, is replaced by
the constructed instance.  The dynamically typed list cell is modelled as
a sum of the two states; calling a non-callable instance would raise a
TypeError, rendered as none.
-/

/-- A constructed resolvent instance: the core only uses prox (and the
optional log, irrelevant to the mutation claim). -/
structure Resolvent (V : Type) where
  prox : V → ℚ → V

/-- A cell of the resolvents list: either the original class (a builder
from the data of the node) or a constructed instance. -/
inductive PyRes (D V : Type) where
  | builder : (D → Resolvent V) → PyRes D V
  | inst : Resolvent V → PyRes D V

/-- Calling a list cell on the data of the node, as resolvents[i](data[i]):
defined on classes, a TypeError on instances. -/
def pyCallRes {D V : Type} (r : PyRes D V) (d : D) : Option (PyRes D V) :=
  match r with
  | PyRes.builder f => some (PyRes.inst (f d))
  | PyRes.inst _ => none

/-- The mutable inputs of serialAlgorithm that the setup loop can touch:
the resolvents list, the data list, the matrices and the dual warm-start
list. -/
structure SerialStore (D V : Type) (n : ℕ) where
  resolvents : Fin n → PyRes D V
  data : Fin n → D
  Wm : Fin n → Fin n → ℚ
  Zm : Fin n → Fin n → ℚ
  warmdual : Option (Fin n → V)

/-- Effect of the setup loop of serialAlgorithm on the inputs of the caller:
each resolvents[i] is overwritten with resolvents[i](data[i]); no other
input is assigned anywhere in the function body. -/
def serialSetup {D V : Type} {n : ℕ} (s : SerialStore D V n) :
    Option (SerialStore D V n) :=
  if h : ∀ i, (pyCallRes (s.resolvents i) (s.data i)).isSome = true then
    some { s with
      resolvents := fun i => (pyCallRes (s.resolvents i) (s.data i)).get (h i) }
  else none

/-!
Trace-equality proximal operator, translated from
traceEqualityIndicator (tests/proxs.py lines 3-31): scale U = A divided
by the squared Frobenius norm of A, and prox(X, t) returns X when
trace(A X) equals v, else X - (trace(A X) - v) U.  The step t is unused,
as in the source.
-/

/-- Squared Frobenius norm. -/
def frobSq {d : ℕ} (A : Matrix (Fin d) (Fin d) ℚ) : ℚ :=
  ∑ i, ∑ j, A i j ^ 2

/-- The scaled matrix U computed by traceEqualityIndicator.scale. -/
def traceScale {d : ℕ} (A : Matrix (Fin d) (Fin d) ℚ) :
    Matrix (Fin d) (Fin d) ℚ :=
  (frobSq A)⁻¹ • A

/-- traceEqualityIndicator.prox. -/
def traceProx {d : ℕ} (A : Matrix (Fin d) (Fin d) ℚ) (v : ℚ)
    (X : Matrix (Fin d) (Fin d) ℚ) (_t : ℚ) : Matrix (Fin d) (Fin d) ℚ :=
  if Matrix.trace (A * X) = v then X
  else X - (Matrix.trace (A * X) - v) • traceScale A

/-!
Concrete instances used by counterexamples and witnesses.
-/

/-- A 2x2 asymmetric W matrix: W[0,1] = 1 but W[1,0] = 0. -/
def cexW4 : Fin 2 → Fin 2 → ℚ := fun i j =>
  if (i : ℕ) = 0 ∧ (j : ℕ) = 1 then 1 else 0

/-- Translation-style resolvents prox(y, t) = y + c_i with c = (1, 3). -/
def cexProx4 : Fin 2 → ℚ → ℚ → ℚ := fun i y _ =>
  y + (if (i : ℕ) = 0 then 1 else 3)

/-- The zero 2x2 matrix. -/
def cexZero2 : Fin 2 → Fin 2 → ℚ := fun _ _ => 0

/-- A 2x2 L matrix with the single nonzero entry L[1,0] = 1. -/
def cexL5 : Fin 2 → Fin 2 → ℚ := fun i j =>
  if (i : ℕ) = 1 ∧ (j : ℕ) = 0 then 1 else 0

/-- A 2x2 Z matrix violating the strict lower triangularity invariant:
its only nonzero entry sits in the upper triangle, Z[0,1] = 5. -/
def cexZupper : Fin 2 → Fin 2 → ℚ := fun i j =>
  if (i : ℕ) = 0 ∧ (j : ℕ) = 1 then 5 else 0

/-- The symmetric two-node Douglas-Rachford style W matrix. -/
def cexWsym : Fin 2 → Fin 2 → ℚ := fun i j => if i = j then 1 else -1

/-- A strictly lower triangular Z with Z[1,0] = -2, so L[1,0] = 2. -/
def cexZlow : Fin 2 → Fin 2 → ℚ := fun i j =>
  if (i : ℕ) = 1 ∧ (j : ℕ) = 0 then -2 else 0

/-- A concrete symmetric nonzero 1x1 coefficient matrix. -/
def cexA10 : Matrix (Fin 1) (Fin 1) ℚ := fun _ _ => 2

/-- A concrete 1x1 input matrix. -/
def cexX10 : Matrix (Fin 1) (Fin 1) ℚ := fun _ _ => 3

/-- A concrete resolvent builder: translation by the data of the node. -/
def cexBuilder : Fin 1 → ℚ → Resolvent ℚ := fun _ d => ⟨fun y _ => y + d⟩

/-- A concrete serial store whose resolvents list holds the classes. -/
def cexStore : SerialStore ℚ ℚ 1 :=
  ⟨fun i => PyRes.builder (cexBuilder i), fun _ => 2,
   fun _ _ => 0, fun _ _ => 0, none⟩

/-!
Generic lemmas about index-ordered sweeps.
-/

/-- Agreement lemma for sweeps: entries below k are frozen once written,
so later stages agree with stage k on them. -/
theorem sweepAux_stable {V : Type} {n : ℕ} (body : Fin n → (Fin n → V) → V)
    (xprev : Fin n → V) :
    ∀ m k (i : Fin n), k ≤ m → (i : ℕ) < k →
      sweepAux body xprev m i = sweepAux body xprev k i := by
  intro m
  induction m with
  | zero => intro k i hk hi; omega
  | succ m ih =>
      intro k i hk hi
      rcases Nat.eq_or_lt_of_le hk with h | h
      · rw [h]
      · have hne : sweepAux body xprev (m + 1) i = sweepAux body xprev m i := by
          simp only [sweepAux]
          rw [if_neg (by omega)]
        rw [hne, ih k i (by omega) hi]

/-- Recurrence satisfied by a sweep whose body at node i depends only on
the entries of index below i: the final array is a fixpoint of the body
at every node. -/
theorem sweepAux_spec {V : Type} {n : ℕ} (body : Fin n → (Fin n → V) → V)
    (xprev : Fin n → V)
    (hdep : ∀ (i : Fin n) (xs ys : Fin n → V),
      (∀ j : Fin n, (j : ℕ) < (i : ℕ) → xs j = ys j) → body i xs = body i ys)
    (i : Fin n) :
    sweepAux body xprev n i = body i (sweepAux body xprev n) := by
  have hstep : sweepAux body xprev n i = sweepAux body xprev ((i : ℕ) + 1) i :=
    sweepAux_stable body xprev n ((i : ℕ) + 1) i i.isLt (by omega)
  rw [hstep]
  simp only [sweepAux]
  rw [if_pos trivial]
  apply hdep
  intro j hj
  exact (sweepAux_stable body xprev (i : ℕ) ((j : ℕ) + 1) j
      (by omega) (by omega)).trans
    (sweepAux_stable body xprev n ((j : ℕ) + 1) j (by omega) (by omega)).symm

/-- The serial sweep body at node i reads only array entries of index
below i. -/
theorem serialBody_dep {V : Type} [AddCommGroup V] [Module ℚ V] {n : ℕ}
    (Z : Fin n → Fin n → ℚ) (prox : Fin n → V → ℚ → V) (alpha : ℚ)
    (v : Fin n → V) (i : Fin n) (xs ys : Fin n → V)
    (h : ∀ j : Fin n, (j : ℕ) < (i : ℕ) → xs j = ys j) :
    serialBody Z prox alpha v i xs = serialBody Z prox alpha v i ys := by
  unfold serialBody
  have hsum : (∑ j : Fin n, if (j : ℕ) < (i : ℕ) then Z i j • xs j else 0)
      = ∑ j : Fin n, if (j : ℕ) < (i : ℕ) then Z i j • ys j else 0 := by
    apply Finset.sum_congr rfl
    intro j _
    by_cases hj : (j : ℕ) < (i : ℕ)
    · rw [if_pos hj, if_pos hj, h j hj]
    · rw [if_neg hj, if_neg hj]
  rw [hsum]

/-- Recurrence of the serial sweep: the new x value at node i is prox of
v_i minus the Z-weighted sum of the new x values of lower-indexed
nodes. -/
theorem serialStepX_spec {V : Type} [AddCommGroup V] [Module ℚ V] {n : ℕ}
    (Z : Fin n → Fin n → ℚ) (prox : Fin n → V → ℚ → V) (alpha : ℚ)
    (x v : Fin n → V) (i : Fin n) :
    serialStepX Z prox alpha x v i =
      prox i (v i - ∑ j : Fin n, if (j : ℕ) < (i : ℕ)
        then Z i j • serialStepX Z prox alpha x v j else 0) alpha :=
  sweepAux_spec (serialBody Z prox alpha v) x
    (fun i xs ys h => serialBody_dep Z prox alpha v i xs ys h) i

/-- C6.  One iteration of the serial reference performs the inclusive
sequential sweep y_i = v_i minus the sum over j < i of Z[i,j] x_j (with
already-updated x_j) followed by x_i = prox(y_i, alpha); then every v_i
is decremented by gamma times the W-weighted sum of all n post-sweep x
values; and the function returns xbar equal to 1/n times the sum of the
final x values. -/
theorem C6_serial_iteration {V : Type} [AddCommGroup V] [Module ℚ V]
    {n : ℕ} (W Z : Fin n → Fin n → ℚ) (prox : Fin n → V → ℚ → V)
    (alpha gamma : ℚ) (v0 : Fin n → V) (itrs : ℕ) :
    (∀ (x v : Fin n → V) (i : Fin n),
      serialStepX Z prox alpha x v i =
        prox i (v i - ∑ j : Fin n, if (j : ℕ) < (i : ℕ)
          then Z i j • serialStepX Z prox alpha x v j else 0) alpha) ∧
    (∀ k, (serialIter W Z prox alpha gamma v0 (k + 1)).1 =
      serialStepX Z prox alpha (serialIter W Z prox alpha gamma v0 k).1
        (serialIter W Z prox alpha gamma v0 k).2) ∧
    (∀ k (i : Fin n), (serialIter W Z prox alpha gamma v0 (k + 1)).2 i =
      (serialIter W Z prox alpha gamma v0 k).2 i -
        gamma • ∑ j, W i j • (serialIter W Z prox alpha gamma v0 (k + 1)).1 j) ∧
    (serialRun W Z prox alpha gamma v0 itrs).1 =
      (n : ℚ)⁻¹ • ∑ i, (serialIter W Z prox alpha gamma v0 itrs).1 i := by
  refine ⟨fun x v i => serialStepX_spec Z prox alpha x v i, fun k => rfl,
    fun k i => rfl, rfl⟩

/-- C7.  If W is symmetric with zero row sums and the initial lifted
point sums to zero, the serial consensus update preserves the zero-sum
invariant at every iteration. -/
theorem C7_sum_v_invariant {V : Type} [AddCommGroup V] [Module ℚ V]
    {n : ℕ} (W Z : Fin n → Fin n → ℚ) (prox : Fin n → V → ℚ → V)
    (alpha gamma : ℚ) (v0 : Fin n → V)
    (hsym : ∀ i j, W i j = W j i) (hrow : ∀ i, ∑ j, W i j = 0)
    (hv0 : ∑ i, v0 i = 0) :
    ∀ k, ∑ i, (serialIter W Z prox alpha gamma v0 k).2 i = 0 := by
  intro k
  induction k with
  | zero => exact hv0
  | succ k ih =>
      have hstep : (serialIter W Z prox alpha gamma v0 (k + 1)).2 =
          fun i => (serialIter W Z prox alpha gamma v0 k).2 i -
            gamma • ∑ j, W i j •
              (serialIter W Z prox alpha gamma v0 (k + 1)).1 j := rfl
      rw [hstep]
      set x := (serialIter W Z prox alpha gamma v0 (k + 1)).1 with hx
      rw [Finset.sum_sub_distrib, ih]
      have hswap : ∑ i : Fin n, gamma • ∑ j, W i j • x j =
          gamma • ∑ j : Fin n, (∑ i : Fin n, W i j) • x j := by
        rw [← Finset.smul_sum]
        congr 1
        rw [Finset.sum_comm]
        apply Finset.sum_congr rfl
        intro j _
        rw [Finset.sum_smul]
      rw [hswap]
      have hcol : ∀ j : Fin n, (∑ i : Fin n, W i j) = 0 := by
        intro j
        calc (∑ i : Fin n, W i j) = ∑ i : Fin n, W j i :=
              Finset.sum_congr rfl (fun i _ => (hsym j i).symm)
          _ = 0 := hrow j
      have : ∑ j : Fin n, (∑ i : Fin n, W i j) • x j = 0 := by
        apply Finset.sum_eq_zero
        intro j _
        rw [hcol j, zero_smul]
      rw [this, smul_zero, zero_sub, neg_zero]

/-- C7 witness at a concrete instance: the two-node Douglas-Rachford W
matrix with identity resolvents and a balanced initial point, after three
iterations. -/
theorem C7_sum_v_invariant_witness :
    ∑ i, (serialIter (fun i j => if i = j then 1 else -1)
      (fun _ _ => (0 : ℚ)) (fun _ y _ => y) 1 (1 / 2)
      (![1, -1] : Fin 2 → ℚ) 3).2 i = 0 :=
  C7_sum_v_invariant _ _ _ _ _ _
    (by intro i j; fin_cases i <;> fin_cases j <;> rfl)
    (by intro i; fin_cases i <;> norm_num [Fin.sum_univ_succ])
    (by norm_num [Fin.sum_univ_succ]) 3

/-- C3.  Seeding of the initial lifted point.  The parallel entry point
follows the stated rule in every case: the external warm-primal routine
applied to the warm-start and L when a primal warm-start is given, plus a
component-wise dual warm-start, and zero when neither is given.  The
serial entry point follows the rule in the dual-only and no-warm-start
cases, but its primal warm-start branch raises a NameError because
serial.py never defines the variable L it passes to getWarmPrimal. -/
theorem C3_seed_behavior {V : Type} [AddCommGroup V] {n : ℕ}
    (warmPrimal : V → (Fin n → Fin n → ℚ) → (Fin n → V))
    (Z : Fin n → Fin n → ℚ) (x : V) (u : Fin n → V)
    (wd : Option (Fin n → V)) :
    serialSeedV0 (n := n) (some x) wd =
      Except.error "NameError: name L is not defined" ∧
    serialSeedV0 (V := V) (n := n) none none = Except.ok (fun _ => 0) ∧
    serialSeedV0 none (some u) = Except.ok u ∧
    parallelSeedV0 warmPrimal Z (some x) none = warmPrimal x (Lmat Z) ∧
    parallelSeedV0 warmPrimal Z (some x) (some u) =
      (fun i => warmPrimal x (Lmat Z) i + u i) ∧
    parallelSeedV0 warmPrimal Z none none = (fun _ => 0) ∧
    parallelSeedV0 warmPrimal Z none (some u) = u := by
  refine ⟨rfl, rfl, ?_, rfl, rfl, rfl, ?_⟩
  · exact congrArg Except.ok (funext fun i => zero_add (u i))
  · exact funext fun i => zero_add (u i)

/-- The squared Frobenius norm of a nonzero matrix is nonzero. -/
theorem frobSq_ne_zero {d : ℕ} (A : Matrix (Fin d) (Fin d) ℚ)
    (hA : A ≠ 0) : frobSq A ≠ 0 := by
  intro h
  apply hA
  ext i j
  have houter : ∀ i ∈ Finset.univ, (∑ j, A i j ^ 2) = 0 :=
    (Finset.sum_eq_zero_iff_of_nonneg
      (fun i _ => Finset.sum_nonneg (fun j _ => sq_nonneg (A i j)))).mp h
  have hinner : ∀ j ∈ Finset.univ, A i j ^ 2 = 0 :=
    (Finset.sum_eq_zero_iff_of_nonneg
      (fun j _ => sq_nonneg (A i j))).mp (houter i (Finset.mem_univ i))
  have := hinner j (Finset.mem_univ j)
  simpa using pow_eq_zero_iff (n := 2) (by omega) |>.mp this

/-- For a symmetric A, the trace of A times the scaled matrix U is 1. -/
theorem trace_mul_traceScale {d : ℕ} (A : Matrix (Fin d) (Fin d) ℚ)
    (hsym : A.transpose = A) (h0 : frobSq A ≠ 0) :
    Matrix.trace (A * traceScale A) = 1 := by
  unfold traceScale
  rw [Matrix.mul_smul, Matrix.trace_smul]
  have htr : Matrix.trace (A * A) = frobSq A := by
    unfold frobSq
    rw [Matrix.trace]
    apply Finset.sum_congr rfl
    intro i _
    rw [Matrix.diag_apply, Matrix.mul_apply]
    apply Finset.sum_congr rfl
    intro j _
    have hji : A j i = A i j := by
      conv_lhs => rw [← hsym]
      exact Matrix.transpose_apply A j i
    rw [hji, sq]
  rw [htr, smul_eq_mul, inv_mul_cancel₀ h0]

/-- The output of traceEqualityIndicator.prox always satisfies the trace
constraint, for symmetric nonzero A. -/
theorem trace_traceProx {d : ℕ} (A : Matrix (Fin d) (Fin d) ℚ) (v : ℚ)
    (hsym : A.transpose = A) (hA : A ≠ 0)
    (X : Matrix (Fin d) (Fin d) ℚ) (t : ℚ) :
    Matrix.trace (A * traceProx A v X t) = v := by
  unfold traceProx
  by_cases h : Matrix.trace (A * X) = v
  · rw [if_pos h]; exact h
  · rw [if_neg h, Matrix.mul_sub, Matrix.trace_sub, Matrix.mul_smul,
      Matrix.trace_smul, trace_mul_traceScale A hsym (frobSq_ne_zero A hA),
      smul_eq_mul, mul_one]
    ring

/-- C10.  For a symmetric nonzero coefficient matrix A (the documented
contract of traceEqualityIndicator), prox is idempotent in exact
arithmetic: the first application lands exactly on the constraint set
trace(A Y) = v, so the second application takes the early-return branch
and returns its input unchanged. -/
theorem C10_trace_prox_idempotent {d : ℕ} (A : Matrix (Fin d) (Fin d) ℚ)
    (v : ℚ) (hsym : A.transpose = A) (hA : A ≠ 0)
    (X : Matrix (Fin d) (Fin d) ℚ) (t t' : ℚ) :
    Matrix.trace (A * traceProx A v X t) = v ∧
    traceProx A v (traceProx A v X t) t' = traceProx A v X t := by
  have key := trace_traceProx A v hsym hA X t
  refine ⟨key, ?_⟩
  show (if Matrix.trace (A * traceProx A v X t) = v then traceProx A v X t
    else traceProx A v X t -
      (Matrix.trace (A * traceProx A v X t) - v) • traceScale A) =
    traceProx A v X t
  rw [if_pos key]

/-- C10 witness at the concrete symmetric 1x1 matrix A = (2), v = 5,
X = (3), t = 1. -/
theorem C10_trace_prox_idempotent_witness :
    Matrix.trace (cexA10 * traceProx cexA10 5 cexX10 1) = 5 ∧
    traceProx cexA10 5 (traceProx cexA10 5 cexX10 1) 1 =
      traceProx cexA10 5 cexX10 1 :=
  C10_trace_prox_idempotent cexA10 5 (by ext i j; rfl)
    (by
      intro h
      have h00 := congrFun (congrFun h 0) 0
      norm_num [cexA10] at h00)
    cexX10 1 1

/-- C9.  The setup loop of serialAlgorithm overwrites every entry of the
resolvents list of the caller with the constructed instance
resolvents[i](data[i]); afterwards the list holds no resolvent class, and
the data list, the matrices and the dual warm-start are untouched. -/
theorem C9_serial_mutation {D V : Type} {n : ℕ}
    (bs : Fin n → D → Resolvent V) (s : SerialStore D V n)
    (h : ∀ i, s.resolvents i = PyRes.builder (bs i)) :
    serialSetup s = some { s with
      resolvents := fun i => PyRes.inst (bs i (s.data i)) } ∧
    ∀ s', serialSetup s = some s' →
      (∀ i g, s'.resolvents i ≠ PyRes.builder g) ∧
      s'.data = s.data ∧ s'.Wm = s.Wm ∧ s'.Zm = s.Zm ∧
      s'.warmdual = s.warmdual := by
  have hcall : ∀ i, pyCallRes (s.resolvents i) (s.data i) =
      some (PyRes.inst (bs i (s.data i))) := by
    intro i; rw [h i]; rfl
  have hsome : ∀ i, (pyCallRes (s.resolvents i) (s.data i)).isSome = true := by
    intro i; rw [hcall i]; rfl
  have hmain : serialSetup s = some { s with
      resolvents := fun i => PyRes.inst (bs i (s.data i)) } := by
    unfold serialSetup
    rw [dif_pos hsome]
    congr 1
    congr 1
    funext i
    simp [hcall i]
  refine ⟨hmain, ?_⟩
  intro s' hs'
  rw [hmain] at hs'
  injection hs' with hs'
  subst hs'
  refine ⟨?_, rfl, rfl, rfl, rfl⟩
  intro i g heq
  exact PyRes.noConfusion heq

/-- C9 witness: a concrete one-node store whose list holds a class. -/
theorem C9_serial_mutation_witness :
    serialSetup cexStore = some { cexStore with
      resolvents := fun i => PyRes.inst (cexBuilder i (cexStore.data i)) } :=
  (C9_serial_mutation cexBuilder cexStore (fun _ => rfl)).1

/-- C4 counterexample.  With a plainly asymmetric W (W[0,1] = 1 but
W[1,0] = 0), the serial entry point does not fail at setup: the call
returns Except.ok and performs its iterations, producing xbar = 2 for the
translation resolvents, because serialAlgorithm contains no validation of
W, Z, dimensions or shapes. -/
theorem C4_counterexample :
    cexW4 0 1 ≠ cexW4 1 0 ∧
    serialRunE cexW4 cexZero2 cexProx4 1 1 none none 1 =
      Except.ok (serialRun cexW4 cexZero2 cexProx4 1 1 (fun _ => 0) 1) ∧
    (serialRun cexW4 cexZero2 cexProx4 1 1 (fun _ => 0) 1).1 = 2 := by
  refine ⟨by norm_num [cexW4], rfl, ?_⟩
  norm_num [serialRun, serialIter, serialStepX, sweepAux, serialBody,
    cexW4, cexZero2, cexProx4, Fin.sum_univ_succ]

/-- Sweeps with pointwise equal bodies coincide. -/
theorem sweepAux_congr {V : Type} {n : ℕ}
    (b1 b2 : Fin n → (Fin n → V) → V) (xprev : Fin n → V)
    (h : ∀ i xs, b1 i xs = b2 i xs) :
    ∀ k, sweepAux b1 xprev k = sweepAux b2 xprev k := by
  intro k
  induction k with
  | zero => rfl
  | succ k ih =>
      funext i
      simp only [sweepAux]
      rw [ih, h i (sweepAux b2 xprev k)]

/-- The serial iterates read Z only through its strictly lower
triangle. -/
theorem serialIter_Z_lower {V : Type} [AddCommGroup V] [Module ℚ V]
    {n : ℕ} (W Z Z' : Fin n → Fin n → ℚ) (prox : Fin n → V → ℚ → V)
    (alpha gamma : ℚ) (v0 : Fin n → V)
    (hZ : ∀ i j : Fin n, (j : ℕ) < (i : ℕ) → Z i j = Z' i j) :
    ∀ k, serialIter W Z prox alpha gamma v0 k =
      serialIter W Z' prox alpha gamma v0 k := by
  have hbody : ∀ (v : Fin n → V) (i : Fin n) (xs : Fin n → V),
      serialBody Z prox alpha v i xs = serialBody Z' prox alpha v i xs := by
    intro v i xs
    unfold serialBody
    have hsum : (∑ j : Fin n, if (j : ℕ) < (i : ℕ) then Z i j • xs j else 0)
        = ∑ j : Fin n, if (j : ℕ) < (i : ℕ) then Z' i j • xs j else 0 := by
      apply Finset.sum_congr rfl
      intro j _
      by_cases hj : (j : ℕ) < (i : ℕ)
      · rw [if_pos hj, if_pos hj, hZ i j hj]
      · rw [if_neg hj, if_neg hj]
    rw [hsum]
  have hstep : ∀ (x v : Fin n → V),
      serialStepX Z prox alpha x v = serialStepX Z' prox alpha x v := by
    intro x v
    unfold serialStepX
    rw [sweepAux_congr _ _ x (hbody v) n]
  intro k
  induction k with
  | zero => rfl
  | succ k ih =>
      show (serialStepX Z prox alpha
          (serialIter W Z prox alpha gamma v0 k).1
          (serialIter W Z prox alpha gamma v0 k).2,
        fun i => (serialIter W Z prox alpha gamma v0 k).2 i -
          gamma • ∑ j, W i j • serialStepX Z prox alpha
            (serialIter W Z prox alpha gamma v0 k).1
            (serialIter W Z prox alpha gamma v0 k).2 j) = _
      rw [ih, hstep]
      rfl

/-- C4 amended.  Neither validation nor abort happens at setup: for every
W and Z (symmetric or not, triangular or not), a serial call without a
primal warm-start returns a result, and the iterates depend on Z only
through its strictly lower triangle, so a nonzero diagonal or upper part
is silently discarded rather than rejected. -/
theorem C4_amended {V : Type} [AddCommGroup V] [Module ℚ V] {n : ℕ}
    (W Z Z' : Fin n → Fin n → ℚ) (prox : Fin n → V → ℚ → V)
    (alpha gamma : ℚ) (wd : Option (Fin n → V)) (v0 : Fin n → V)
    (itrs : ℕ)
    (hZ : ∀ i j : Fin n, (j : ℕ) < (i : ℕ) → Z i j = Z' i j) :
    (∃ v0', serialSeedV0 (V := V) (n := n) none wd = Except.ok v0' ∧
      serialRunE W Z prox alpha gamma none wd itrs =
        Except.ok (serialRun W Z prox alpha gamma v0' itrs)) ∧
    serialRun W Z prox alpha gamma v0 itrs =
      serialRun W Z' prox alpha gamma v0 itrs := by
  constructor
  · cases wd with
    | none => exact ⟨_, rfl, rfl⟩
    | some u => exact ⟨_, rfl, rfl⟩
  · unfold serialRun
    rw [serialIter_Z_lower W Z Z' prox alpha gamma v0 hZ itrs]

/-- C4 amended witness: asymmetric W and a Z with a nonzero upper entry,
which behaves exactly like the zero matrix. -/
theorem C4_amended_witness :
    (∃ v0', serialSeedV0 (V := ℚ) (n := 2) none none = Except.ok v0' ∧
      serialRunE cexW4 cexZupper (fun _ y _ => y) 1 1 none none 3 =
        Except.ok (serialRun cexW4 cexZupper (fun _ y _ => y) 1 1 v0' 3)) ∧
    serialRun (V := ℚ) cexW4 cexZupper (fun _ y _ => y) 1 1 (fun _ => 0) 3 =
      serialRun (V := ℚ) cexW4 cexZero2 (fun _ y _ => y) 1 1 (fun _ => 0) 3 :=
  C4_amended cexW4 cexZupper cexZero2 (fun _ y _ => y) 1 1 none
    (fun _ => 0) 3
    (by
      intro i j hj
      fin_cases i <;> fin_cases j <;>
        simp_all [cexZupper, cexZero2])

/-- C5 counterexample.  For the ordered pair (1, 0) with W = 0 and
L[1,0] = 1 the claim asserts a channel (1, 0), since L[1,0] is nonzero
within tolerance; the planner creates no such channel (for i > j it
creates the downward channel (i, j) only when W[i,j] is nonzero; an
L-only coupling yields only the upward channel (0, 1)). -/
theorem C5_counterexample :
    hasChannel cexZero2 cexL5 1 0 = false ∧
    close0 (cexL5 1 0) = false ∧
    hasChannel cexZero2 cexL5 0 1 = true := by
  refine ⟨?_, ?_, ?_⟩
  · norm_num [hasChannel, close0, cexZero2]
  · norm_num [close0, cexL5]
  · norm_num [hasChannel, close0, cexZero2, cexL5]

/-- C5 amended.  For every pair j < i: the downward channel (i, j) exists
iff W[i,j] is nonzero within tolerance, the upward channel (j, i) exists
iff W[i,j] or L[i,j] is nonzero within tolerance, and every coupled pair
is classified into exactly one of the five classes at each endpoint
according to the (W, L) case: W only puts each node in the WQ of the other;
L only puts j in up_LQ of i and i in down_LQ of j; both put j in up_BQ
of i and i in down_BQ of j. -/
theorem C5_amended {n : ℕ} (W L : Fin n → Fin n → ℚ) (i j : Fin n)
    (hji : (j : ℕ) < (i : ℕ)) :
    (hasChannel W L i j = !close0 (W i j)) ∧
    (hasChannel W L j i = (!close0 (W i j) || !close0 (L i j))) ∧
    (close0 (W i j) = false → close0 (L i j) = true →
      classVec W L i j = [true, false, false, false, false] ∧
      classVec W L j i = [true, false, false, false, false]) ∧
    (close0 (W i j) = true → close0 (L i j) = false →
      classVec W L i j = [false, true, false, false, false] ∧
      classVec W L j i = [false, false, true, false, false]) ∧
    (close0 (W i j) = false → close0 (L i j) = false →
      classVec W L i j = [false, false, false, true, false] ∧
      classVec W L j i = [false, false, false, false, true]) := by
  have hij : ¬ (i : ℕ) < (j : ℕ) := by omega
  refine ⟨?_, ?_, ?_, ?_, ?_⟩
  · simp [hasChannel, hji]
  · simp [hasChannel, hji, hij]
  · intro hcw hcl
    exact ⟨by simp [classVec, inWQ, inUpLQ, inDownLQ, inUpBQ, inDownBQ,
        hji, hij, hcw, hcl],
      by simp [classVec, inWQ, inUpLQ, inDownLQ, inUpBQ, inDownBQ,
        hji, hij, hcw, hcl]⟩
  · intro hcw hcl
    exact ⟨by simp [classVec, inWQ, inUpLQ, inDownLQ, inUpBQ, inDownBQ,
        hji, hij, hcw, hcl],
      by simp [classVec, inWQ, inUpLQ, inDownLQ, inUpBQ, inDownBQ,
        hji, hij, hcw, hcl]⟩
  · intro hcw hcl
    exact ⟨by simp [classVec, inWQ, inUpLQ, inDownLQ, inUpBQ, inDownBQ,
        hji, hij, hcw, hcl],
      by simp [classVec, inWQ, inUpLQ, inDownLQ, inUpBQ, inDownBQ,
        hji, hij, hcw, hcl]⟩

/-- C5 amended witness at the concrete L-only pair (1, 0): the up_LQ and
down_LQ classification with only the upward channel. -/
theorem C5_amended_witness :
    hasChannel cexZero2 cexL5 1 0 = !close0 (cexZero2 1 0) ∧
    hasChannel cexZero2 cexL5 0 1 =
      (!close0 (cexZero2 1 0) || !close0 (cexL5 1 0)) ∧
    classVec cexZero2 cexL5 1 0 = [false, true, false, false, false] ∧
    classVec cexZero2 cexL5 0 1 = [false, false, true, false, false] := by
  obtain ⟨h1, h2, -, h4, -⟩ := C5_amended cexZero2 cexL5 1 0 (by decide)
  have hcw : close0 (cexZero2 1 0) = true := by norm_num [close0, cexZero2]
  have hcl : close0 (cexL5 1 0) = false := by norm_num [close0, cexL5]
  obtain ⟨h5, h6⟩ := h4 hcw hcl
  exact ⟨h1, h2, h5, h6⟩

/-- Under clean tolerance behaviour of L, the parallel round body equals
the serial round body: the up_LQ and up_BQ receives supply exactly the
nonzero L[i,j] terms, and L[i,j] = -Z[i,j] below the diagonal. -/
theorem parBody_eq_serialBody {V : Type} [AddCommGroup V] [Module ℚ V]
    {n : ℕ} (W Z : Fin n → Fin n → ℚ) (prox : Fin n → V → ℚ → V)
    (alpha : ℚ)
    (hL : ∀ i j : Fin n, close0 (Lmat Z i j) = true → Lmat Z i j = 0)
    (v : Fin n → V) (i : Fin n) (xs : Fin n → V) :
    parBody W Z prox alpha v i xs = serialBody Z prox alpha v i xs := by
  unfold parBody serialBody
  have harg : (v i + ∑ j : Fin n,
      if inUpLQ W (Lmat Z) i j || inUpBQ W (Lmat Z) i j
      then Lmat Z i j • xs j else 0) =
      v i - ∑ j : Fin n,
        if (j : ℕ) < (i : ℕ) then Z i j • xs j else 0 := by
    rw [sub_eq_add_neg, ← Finset.sum_neg_distrib]
    congr 1
    apply Finset.sum_congr rfl
    intro j _
    by_cases hj : (j : ℕ) < (i : ℕ)
    · rw [if_pos hj]
      by_cases hcl : close0 (Lmat Z i j) = true
      · have hz : Z i j = 0 := by
          have h0 := hL i j hcl
          unfold Lmat at h0
          rw [if_pos hj] at h0
          exact neg_eq_zero.mp h0
        simp [inUpLQ, inUpBQ, hcl, hz, Lmat]
      · have hcl' : close0 (Lmat Z i j) = false :=
          Bool.eq_false_iff.mpr hcl
        have hpred : (inUpLQ W (Lmat Z) i j || inUpBQ W (Lmat Z) i j)
            = true := by
          cases hcw : close0 (W i j) <;>
            simp [inUpLQ, inUpBQ, hj, hcl', hcw]
        simp [hpred, Lmat, hj, neg_smul]
    · rw [if_neg hj]
      have hpred : (inUpLQ W (Lmat Z) i j || inUpBQ W (Lmat Z) i j)
          = false := by
        simp [inUpLQ, inUpBQ, hj]
      simp [hpred]
  rw [harg]

/-- The parallel round x values equal the serial sweep values. -/
theorem parStepX_eq_serialStepX {V : Type} [AddCommGroup V] [Module ℚ V]
    {n : ℕ} (W Z : Fin n → Fin n → ℚ) (prox : Fin n → V → ℚ → V)
    (alpha : ℚ)
    (hL : ∀ i j : Fin n, close0 (Lmat Z i j) = true → Lmat Z i j = 0)
    (x v : Fin n → V) :
    parStepX W Z prox alpha x v = serialStepX Z prox alpha x v := by
  unfold parStepX serialStepX
  rw [sweepAux_congr _ _ x
    (fun i xs => parBody_eq_serialBody W Z prox alpha hL v i xs) n]

/-- For symmetric W with clean tolerance behaviour, the diagonal term
plus the three v_temp accumulations of a worker add up to the full
W-weighted consensus sum of the serial reference. -/
theorem parVtmp_eq_consensus {V : Type} [AddCommGroup V] [Module ℚ V]
    {n : ℕ} (W Z : Fin n → Fin n → ℚ)
    (hsym : ∀ i j, W i j = W j i)
    (hW : ∀ i j, close0 (W i j) = true → W i j = 0)
    (x : Fin n → V) (i : Fin n) :
    W i i • x i + parVtmp W Z x i = ∑ j, W i j • x j := by
  unfold parVtmp
  have hsplit : ∑ j : Fin n, W i j • x j =
      ∑ j : Fin n, ((if j = i then W i j • x j else 0) +
        ((if inUpBQ W (Lmat Z) i j then W i j • x j else 0) +
         (if inWQ W (Lmat Z) i j then W i j • x j else 0) +
         (if inDownBQ W (Lmat Z) i j then W i j • x j else 0))) := by
    apply Finset.sum_congr rfl
    intro j _
    rcases lt_trichotomy ((j : ℕ)) ((i : ℕ)) with hj | hj | hj
    · have hne : j ≠ i := by
        intro h; rw [h] at hj; exact lt_irrefl _ hj
      have hij : ¬ (i : ℕ) < (j : ℕ) := by omega
      by_cases hcw : close0 (W i j) = true
      · have hz := hW i j hcw
        simp [hz]
      · have hcw' : close0 (W i j) = false := Bool.eq_false_iff.mpr hcw
        cases hcl : close0 (Lmat Z i j) with
        | true =>
            simp [inUpBQ, inWQ, inDownBQ, hj, hij, hne, hcw', hcl]
        | false =>
            simp [inUpBQ, inWQ, inDownBQ, hj, hij, hne, hcw', hcl]
    · have hji : j = i := Fin.ext hj
      subst hji
      simp [inUpBQ, inWQ, inDownBQ]
    · have hne : j ≠ i := by
        intro h; rw [h] at hj; exact lt_irrefl _ hj
      have hij : ¬ (j : ℕ) < (i : ℕ) := by omega
      by_cases hcw : close0 (W j i) = true
      · have hz : W i j = 0 := by rw [hsym i j, hW j i hcw]
        simp [hz]
      · have hcw' : close0 (W j i) = false := Bool.eq_false_iff.mpr hcw
        cases hcl : close0 (Lmat Z j i) with
        | true =>
            simp [inUpBQ, inWQ, inDownBQ, hj, hij, hne, hcw', hcl]
        | false =>
            simp [inUpBQ, inWQ, inDownBQ, hj, hij, hne, hcw', hcl]
  rw [hsplit, Finset.sum_add_distrib]
  congr 1
  · rw [Finset.sum_ite_eq' Finset.univ i (fun j => W i j • x j)]
    simp
  · rw [Finset.sum_add_distrib, Finset.sum_add_distrib]

/-- Below the diagonal, L-weighted sums are the negated Z-weighted
sums. -/
theorem lowerL_sum_neg {V : Type} [AddCommGroup V] [Module ℚ V] {n : ℕ}
    (Z : Fin n → Fin n → ℚ) (y : Fin n → V) (i : Fin n) :
    (∑ j : Fin n, if (j : ℕ) < (i : ℕ) then Lmat Z i j • y j else 0) =
      - ∑ j : Fin n, if (j : ℕ) < (i : ℕ) then Z i j • y j else 0 := by
  rw [← Finset.sum_neg_distrib]
  apply Finset.sum_congr rfl
  intro j _
  by_cases hj : (j : ℕ) < (i : ℕ)
  · rw [if_pos hj, if_pos hj]
    simp [Lmat, hj, neg_smul]
  · rw [if_neg hj, if_neg hj, neg_zero]

/-- C1.  For identical inputs with symmetric W and tolerance-clean
entries (every entry of W and of L within the isclose tolerance of zero
is exactly zero), the parallel engine and the serial reference produce
the same iterate sequences: the per-worker x and v values of every round
coincide with the serial values, and they satisfy the recurrence
x_i = prox(v_i + sum over j < i of L[i,j] x_j, alpha) and
v_i_next = v_i - gamma * sum over j of W[i,j] x_j. -/
theorem C1_parallel_serial_equiv {V : Type} [AddCommGroup V] [Module ℚ V]
    {n : ℕ} (W Z : Fin n → Fin n → ℚ) (prox : Fin n → V → ℚ → V)
    (alpha gamma : ℚ) (v0 : Fin n → V)
    (hsym : ∀ i j, W i j = W j i)
    (hW : ∀ i j, close0 (W i j) = true → W i j = 0)
    (hL : ∀ i j, close0 (Lmat Z i j) = true → Lmat Z i j = 0) :
    (∀ k, parIter W Z prox alpha gamma v0 k =
      serialIter W Z prox alpha gamma v0 k) ∧
    (∀ k (i : Fin n), (parIter W Z prox alpha gamma v0 (k + 1)).1 i =
      prox i ((parIter W Z prox alpha gamma v0 k).2 i +
        ∑ j : Fin n, if (j : ℕ) < (i : ℕ)
          then Lmat Z i j • (parIter W Z prox alpha gamma v0 (k + 1)).1 j
          else 0) alpha) ∧
    (∀ k (i : Fin n), (parIter W Z prox alpha gamma v0 (k + 1)).2 i =
      (parIter W Z prox alpha gamma v0 k).2 i -
        gamma • ∑ j, W i j •
          (parIter W Z prox alpha gamma v0 (k + 1)).1 j) := by
  have hstep : ∀ x v : Fin n → V,
      parStepX W Z prox alpha x v = serialStepX Z prox alpha x v :=
    fun x v => parStepX_eq_serialStepX W Z prox alpha hL x v
  have hmain : ∀ k, parIter W Z prox alpha gamma v0 k =
      serialIter W Z prox alpha gamma v0 k := by
    intro k
    induction k with
    | zero => rfl
    | succ k ih =>
        show (parStepX W Z prox alpha (parIter W Z prox alpha gamma v0 k).1
            (parIter W Z prox alpha gamma v0 k).2,
          fun i => (parIter W Z prox alpha gamma v0 k).2 i -
            gamma • (W i i • parStepX W Z prox alpha
                (parIter W Z prox alpha gamma v0 k).1
                (parIter W Z prox alpha gamma v0 k).2 i +
              parVtmp W Z (parStepX W Z prox alpha
                (parIter W Z prox alpha gamma v0 k).1
                (parIter W Z prox alpha gamma v0 k).2) i)) =
          serialIter W Z prox alpha gamma v0 (k + 1)
        rw [ih, hstep]
        have hser : serialIter W Z prox alpha gamma v0 (k + 1) =
            (serialStepX Z prox alpha
              (serialIter W Z prox alpha gamma v0 k).1
              (serialIter W Z prox alpha gamma v0 k).2,
             fun i => (serialIter W Z prox alpha gamma v0 k).2 i -
               gamma • ∑ j, W i j • serialStepX Z prox alpha
                 (serialIter W Z prox alpha gamma v0 k).1
                 (serialIter W Z prox alpha gamma v0 k).2 j) := rfl
        rw [hser]
        refine congrArg₂ Prod.mk rfl ?_
        funext i
        rw [parVtmp_eq_consensus W Z hsym hW
          (serialStepX Z prox alpha
            (serialIter W Z prox alpha gamma v0 k).1
            (serialIter W Z prox alpha gamma v0 k).2) i]
  refine ⟨hmain, ?_, ?_⟩
  · intro k i
    rw [hmain (k + 1), hmain k]
    have h1 : (serialIter W Z prox alpha gamma v0 (k + 1)).1 =
        serialStepX Z prox alpha
          (serialIter W Z prox alpha gamma v0 k).1
          (serialIter W Z prox alpha gamma v0 k).2 := rfl
    rw [h1, serialStepX_spec]
    have harg : (serialIter W Z prox alpha gamma v0 k).2 i -
        (∑ j : Fin n, if (j : ℕ) < (i : ℕ)
          then Z i j • serialStepX Z prox alpha
            (serialIter W Z prox alpha gamma v0 k).1
            (serialIter W Z prox alpha gamma v0 k).2 j else 0) =
        (serialIter W Z prox alpha gamma v0 k).2 i +
        ∑ j : Fin n, if (j : ℕ) < (i : ℕ)
          then Lmat Z i j • serialStepX Z prox alpha
            (serialIter W Z prox alpha gamma v0 k).1
            (serialIter W Z prox alpha gamma v0 k).2 j else 0 := by
      rw [lowerL_sum_neg, ← sub_eq_add_neg]
    rw [harg]
  · intro k i
    rw [hmain (k + 1), hmain k]
    rfl

/-- C1 witness at the two-node instance with symmetric W, L[1,0] = 2 and
identity resolvents, at round 2 (node 1 for the x recurrence, node 0 for
the v recurrence). -/
theorem C1_parallel_serial_equiv_witness :
    (parIter (V := ℚ) cexWsym cexZlow (fun _ y _ => y) 1 (1 / 2)
        ![1, -1] 2 =
      serialIter cexWsym cexZlow (fun _ y _ => y) 1 (1 / 2) ![1, -1] 2) ∧
    ((parIter (V := ℚ) cexWsym cexZlow (fun _ y _ => y) 1 (1 / 2)
        ![1, -1] (1 + 1)).1 1 =
      (parIter (V := ℚ) cexWsym cexZlow (fun _ y _ => y) 1 (1 / 2)
        ![1, -1] 1).2 1 +
      ∑ j : Fin 2, if (j : ℕ) < ((1 : Fin 2) : ℕ)
        then Lmat cexZlow 1 j • (parIter (V := ℚ) cexWsym cexZlow
          (fun _ y _ => y) 1 (1 / 2) ![1, -1] (1 + 1)).1 j
        else 0) ∧
    ((parIter (V := ℚ) cexWsym cexZlow (fun _ y _ => y) 1 (1 / 2)
        ![1, -1] (1 + 1)).2 0 =
      (parIter (V := ℚ) cexWsym cexZlow (fun _ y _ => y) 1 (1 / 2)
        ![1, -1] 1).2 0 -
      ((1 : ℚ) / 2) • ∑ j, cexWsym 0 j • (parIter (V := ℚ) cexWsym
        cexZlow (fun _ y _ => y) 1 (1 / 2) ![1, -1] (1 + 1)).1 j) := by
  have h := C1_parallel_serial_equiv (V := ℚ) cexWsym cexZlow
    (fun _ y _ => y) 1 (1 / 2) ![1, -1]
    (by intro i j; fin_cases i <;> fin_cases j <;> rfl)
    (by
      intro i j h
      fin_cases i <;> fin_cases j <;> revert h <;>
        norm_num [cexWsym, close0])
    (by
      intro i j h
      fin_cases i <;> fin_cases j <;> revert h <;>
        norm_num [Lmat, cexZlow, close0])
  exact ⟨h.1 2, h.2.1 1 1, h.2.2 1 0⟩

/-- While every read returns 0, the worker loop just advances. -/
theorem workerRoundsAux_skip (tread : ℕ → ℕ) (k itrs : ℕ)
    (h0 : ∀ j, j < k → tread j = 0) (hk : k ≤ itrs) :
    ∀ d fuel itr, itr + d = k →
      workerRoundsAux tread (d + fuel) itr itrs =
        workerRoundsAux tread fuel k itrs := by
  intro d
  induction d with
  | zero =>
      intro fuel itr h
      have hik : itr = k := by omega
      subst hik
      rw [Nat.zero_add]
  | succ d ih =>
      intro fuel itr h
      have hik : itr < k := by omega
      have h1 : itr < itrs := by omega
      have ht : tread itr = 0 := h0 itr hik
      have hfe : d + 1 + fuel = (d + fuel) + 1 := by omega
      rw [hfe]
      simp only [workerRoundsAux]
      rw [if_pos h1, if_neg (by simp [ht])]
      exact ih fuel (itr + 1) (by omega)

/-- Once the bound has been lowered to the target t, the worker runs the
remaining rounds up to t and exits at the loop condition. -/
theorem workerRoundsAux_climb (tread : ℕ → ℕ) (k t : ℕ)
    (hconst : ∀ j, k ≤ j → tread j = t) (ht : 0 < t) :
    ∀ d fuel j, k < j → j + d = t →
      workerRoundsAux tread (d + fuel + 1) j t = t := by
  intro d
  induction d with
  | zero =>
      intro fuel j hkj h
      have hjt : j = t := by omega
      subst hjt
      rw [Nat.zero_add]
      simp only [workerRoundsAux]
      rw [if_neg (lt_irrefl j)]
  | succ d ih =>
      intro fuel j hkj h
      have hj : j < t := by omega
      have htj : tread j = t := hconst j (by omega)
      have hfe : d + 1 + fuel + 1 = (d + fuel + 1) + 1 := by omega
      rw [hfe]
      simp only [workerRoundsAux]
      rw [if_pos hj, htj, if_pos (by omega : t ≠ 0),
        if_neg (by omega : ¬ t < j)]
      exact ih fuel (j + 1) (by omega) (by omega)

/-- C2 counterexample.  A worker that first observes the target t = 2 at
the start of round k = 2 (so t > 0 and k >= t) does not stop immediately:
the break fires only when t < itr, so the worker sets itrs = 2, runs
round 2 in full, and exits with 3 executed rounds instead of the 2 the
claim predicts. -/
theorem C2_counterexample :
    workerRounds (treadAt 2 2) 10 = 3 ∧
    workerRounds (treadAt 2 2) 10 ≠ 2 := by
  constructor <;> decide

/-- C2 amended.  If the target t > 0 becomes visible at the start of
round k (all earlier reads 0, all reads from k on equal t, with k and t
below the iteration bound), then: for k > t the worker stops immediately
with k rounds; for k = t it completes round t and stops with t + 1
rounds; for k < t it continues and performs exactly t rounds.  Every
executed round is completed through the consensus update: the only exit
points are the break before any receive and the loop condition. -/
theorem C2_amended (tread : ℕ → ℕ) (k t itrs : ℕ)
    (h0 : ∀ j, j < k → tread j = 0) (hconst : ∀ j, k ≤ j → tread j = t)
    (ht : 0 < t) (hk : k < itrs) (hti : t < itrs) :
    workerRounds tread itrs = if t < k then k else max t (k + 1) := by
  unfold workerRounds
  have hdec : 2 * itrs + 2 = k + (2 * itrs + 2 - k) := by omega
  rw [hdec, workerRoundsAux_skip tread k itrs h0 (by omega) k
    (2 * itrs + 2 - k) 0 (by omega)]
  have hfe : 2 * itrs + 2 - k = (2 * itrs + 1 - k) + 1 := by omega
  rw [hfe]
  simp only [workerRoundsAux]
  rw [if_pos hk, hconst k le_rfl, if_pos (by omega : t ≠ 0)]
  by_cases hlt : t < k
  · rw [if_pos hlt, if_pos hlt]
  · rw [if_neg hlt, if_neg hlt]
    rcases Nat.lt_or_ge k t with hkt | hkt
    · have hmax : max t (k + 1) = t := by omega
      rw [hmax]
      have hfe2 : 2 * itrs + 1 - k = (t - (k + 1)) + (2 * itrs + 1 - t) + 1 := by
        omega
      rw [hfe2]
      exact workerRoundsAux_climb tread k t hconst ht (t - (k + 1))
        (2 * itrs + 1 - t) (k + 1) (by omega) (by omega)
    · have hmax : max t (k + 1) = k + 1 := by omega
      rw [hmax]
      have hfe2 : 2 * itrs + 1 - k = (2 * itrs - k) + 1 := by omega
      rw [hfe2]
      simp only [workerRoundsAux]
      rw [if_neg (by omega : ¬ k + 1 < t)]

/-- C2 amended witness: target 5 visible from round 1 with bound 10; the
worker performs exactly 5 rounds. -/
theorem C2_amended_witness :
    workerRounds (treadAt 1 5) 10 = if 5 < 1 then 1 else max 5 (1 + 1) :=
  C2_amended (treadAt 1 5) 1 5 10
    (by intro j hj; simp [treadAt, hj])
    (by intro j hj; simp [treadAt, Nat.not_lt.mpr hj])
    (by omega) (by omega) (by omega)

/-- The monitor loop executes at most fuel rounds. -/
theorem evaluateAux_rounds_le (delta : ℕ → ℚ) (vartol : ℚ) :
    ∀ fuel itr counter,
      (evaluateAux delta vartol fuel itr counter).2 ≤ itr + fuel := by
  intro fuel
  induction fuel with
  | zero => intro itr counter; simp [evaluateAux]
  | succ fuel ih =>
      intro itr counter
      simp only [evaluateAux]
      by_cases hd : delta itr < vartol
      · rw [if_pos hd]
        by_cases hc : 10 ≤ counter + 1
        · rw [if_pos hc]
          show itr + 1 ≤ itr + (fuel + 1)
          omega
        · rw [if_neg hc]
          have := ih (itr + 1) (counter + 1)
          omega
      · rw [if_neg hd]
        have := ih (itr + 1) 0
        omega

/-- If the streak never reaches 10 within the remaining rounds, the
monitor exits at the loop bound without writing a target. -/
theorem evaluateAux_never (delta : ℕ → ℚ) (vartol : ℚ) :
    ∀ fuel itr counter,
      streak delta vartol itr =
        (if delta itr < vartol then counter + 1 else 0) →
      (∀ m, itr ≤ m → m < itr + fuel → streak delta vartol m < 10) →
      evaluateAux delta vartol fuel itr counter = (none, itr + fuel) := by
  intro fuel
  induction fuel with
  | zero => intro itr counter _ _; simp [evaluateAux]
  | succ fuel ih =>
      intro itr counter hrel hlow
      simp only [evaluateAux]
      by_cases hd : delta itr < vartol
      · rw [if_pos hd]
        have hs : streak delta vartol itr = counter + 1 := by
          rw [hrel, if_pos hd]
        have hc : ¬ 10 ≤ counter + 1 := by
          have := hlow itr le_rfl (by omega)
          omega
        rw [if_neg hc]
        have hrel' : streak delta vartol (itr + 1) =
            (if delta (itr + 1) < vartol then counter + 1 + 1 else 0) := by
          simp only [streak]
          rw [hs]
        have hres := ih (itr + 1) (counter + 1) hrel'
          (fun m h1 h2 => hlow m (by omega) (by omega))
        have harith : itr + 1 + fuel = itr + (fuel + 1) := by omega
        rw [harith] at hres
        exact hres
      · rw [if_neg hd]
        have hs : streak delta vartol itr = 0 := by
          rw [hrel, if_neg hd]
        have hrel' : streak delta vartol (itr + 1) =
            (if delta (itr + 1) < vartol then 0 + 1 else 0) := by
          simp only [streak]
          rw [hs]
        have hres := ih (itr + 1) 0 hrel'
          (fun m h1 h2 => hlow m (by omega) (by omega))
        have harith : itr + 1 + fuel = itr + (fuel + 1) := by omega
        rw [harith] at hres
        exact hres

/-- On the first round k whose streak reaches 10, the monitor writes
k + 10 and exits, having executed k + 1 rounds. -/
theorem evaluateAux_stop (delta : ℕ → ℚ) (vartol : ℚ) :
    ∀ fuel itr counter (k : ℕ),
      streak delta vartol itr =
        (if delta itr < vartol then counter + 1 else 0) →
      itr ≤ k → k < itr + fuel → 10 ≤ streak delta vartol k →
      (∀ j, itr ≤ j → j < k → streak delta vartol j < 10) →
      evaluateAux delta vartol fuel itr counter =
        (some (k + 10), k + 1) := by
  intro fuel
  induction fuel with
  | zero =>
      intro itr counter k _ hk1 hk2 _ _
      exact absurd hk2 (by omega)
  | succ fuel ih =>
      intro itr counter k hrel hk1 hk2 hk10 hfirst
      simp only [evaluateAux]
      by_cases heq : itr = k
      · subst heq
        have hd : delta itr < vartol := by
          by_contra hd
          rw [hrel, if_neg hd] at hk10
          omega
        have hs : streak delta vartol itr = counter + 1 := by
          rw [hrel, if_pos hd]
        rw [if_pos hd, if_pos (by omega : 10 ≤ counter + 1)]
      · have hik : itr < k := by omega
        have hsl : streak delta vartol itr < 10 := hfirst itr le_rfl hik
        by_cases hd : delta itr < vartol
        · rw [if_pos hd]
          have hs : streak delta vartol itr = counter + 1 := by
            rw [hrel, if_pos hd]
          rw [if_neg (by omega : ¬ 10 ≤ counter + 1)]
          apply ih (itr + 1) (counter + 1) k
          · simp only [streak]
            rw [hs]
          · omega
          · omega
          · exact hk10
          · exact fun j h1 h2 => hfirst j (by omega) h2
        · rw [if_neg hd]
          apply ih (itr + 1) 0 k
          · have hs : streak delta vartol itr = 0 := by
              rw [hrel, if_neg hd]
            simp only [streak]
            rw [hs]
          · omega
          · omega
          · exact hk10
          · exact fun j h1 h2 => hfirst j (by omega) h2

/-- C8.  The monitor reads a baseline sample per node, then runs at most
itrs - 10 rounds; each round it reads one sample per node and compares
the summed per-node distances delta to vartol, incrementing the streak on
delta < vartol and resetting it otherwise; on the first round k whose
streak reaches 10 it sets the shared target to k + 10 and exits after
k + 1 rounds; if the streak never reaches 10 it exits after itrs - 10
rounds without setting the target. -/
theorem C8_monitor {V : Type} [AddCommGroup V] {n : ℕ} (itrs : ℕ)
    (vartol : ℚ) (nrm : V → ℚ) (samples : ℕ → Fin n → V) :
    (evaluateMonitor itrs vartol nrm samples).2 ≤ itrs - 10 ∧
    ((∀ k, k < itrs - 10 →
        streak (monitorDelta nrm samples) vartol k < 10) →
      evaluateMonitor itrs vartol nrm samples = (none, itrs - 10)) ∧
    (∀ k, k < itrs - 10 →
      10 ≤ streak (monitorDelta nrm samples) vartol k →
      (∀ j, j < k → streak (monitorDelta nrm samples) vartol j < 10) →
      evaluateMonitor itrs vartol nrm samples = (some (k + 10), k + 1)) := by
  have hrel0 : streak (monitorDelta nrm samples) vartol 0 =
      (if monitorDelta nrm samples 0 < vartol then 0 + 1 else 0) := rfl
  refine ⟨?_, ?_, ?_⟩
  · have h := evaluateAux_rounds_le (monitorDelta nrm samples) vartol
      (itrs - 10) 0 0
    show (evaluateAux (monitorDelta nrm samples) vartol
      (itrs - 10) 0 0).2 ≤ itrs - 10
    omega
  · intro hlow
    show evaluateAux (monitorDelta nrm samples) vartol (itrs - 10) 0 0 =
      (none, itrs - 10)
    have h := evaluateAux_never (monitorDelta nrm samples) vartol
      (itrs - 10) 0 0 hrel0 (fun m _ h2 => hlow m (by omega))
    have harith : (0 : ℕ) + (itrs - 10) = itrs - 10 := Nat.zero_add _
    rw [harith] at h
    exact h
  · intro k hk hk10 hfirst
    show evaluateAux (monitorDelta nrm samples) vartol (itrs - 10) 0 0 =
      (some (k + 10), k + 1)
    exact evaluateAux_stop (monitorDelta nrm samples) vartol (itrs - 10) 0 0
      k hrel0 (by omega) (by omega) hk10 (fun j _ h2 => hfirst j h2)

/-- With every delta below the tolerance, the streak counts the rounds. -/
theorem streak_const_small (delta : ℕ → ℚ) (vartol : ℚ)
    (hd : ∀ k, delta k < vartol) : ∀ k, streak delta vartol k = k + 1 := by
  intro k
  induction k with
  | zero => simp [streak, hd 0]
  | succ k ih => simp [streak, hd (k + 1), ih]

/-- C8 witness: a constant telemetry stream with vartol = 1 and
itrs = 30 converges immediately; the streak reaches 10 at round 9, the
target is set to 19 and the monitor exits after 10 rounds. -/
theorem C8_monitor_witness :
    evaluateMonitor (V := ℚ) (n := 1) 30 1 (fun q => |q|) (fun _ _ => 0) =
      (some 19, 10) := by
  have hd : ∀ k, monitorDelta (V := ℚ) (n := 1) (fun q => |q|)
      (fun _ _ => 0) k < 1 := by
    intro k
    simp [monitorDelta]
  have hs := streak_const_small _ 1 hd
  exact (C8_monitor 30 1 (fun q => |q|) (fun _ _ => 0)).2.2 9 (by omega)
    (by rw [hs 9]) (fun j hj => by rw [hs j]; omega)
